import Mathlib

/-!
Verification of the canonicalization engine of the CVC (canonical vocabulary
compression) repository, a shallow embedding of
`scripts/apply_cvc.py` (class `CVCProcessor`).

Python strings are modelled as `List Char`; `re`'s word-character class and
`str.split`'s whitespace class are modelled by explicit ASCII character
predicates; Python dicts built from key/value sequences are modelled as
association lists with last-writer-wins lookup; float rates are modelled
exactly with `ℚ`.
-/

abbrev Word := List Char

/-- The regex word-character class `\w` (letter, digit or underscore). -/
def isWordChar (c : Char) : Bool := c.isAlphanum || c == '_'

/-- The whitespace characters recognised by `str.split()` and `str.strip()`. -/
def isSpaceChar (c : Char) : Bool :=
  c == ' ' || c == '\t' || c == '\n' || c == '\r' || c == '\x0b' || c == '\x0c'

/-- `str.lower()`. -/
def pyLower (s : Word) : Word := s.map Char.toLower

/-- `str.upper()`. -/
def pyUpper (s : Word) : Word := s.map Char.toUpper

/-- A character is cased if it is an upper- or lowercase letter. -/
def isCased (c : Char) : Bool := c.isUpper || c.isLower

/-- `str.isupper()`: at least one cased character, and no cased character
is lowercase. -/
def pyIsUpper (s : Word) : Bool :=
  s.any isCased && s.all (fun c => !isCased c || c.isUpper)

/-- `str.capitalize()`: first character uppercased, the rest lowercased. -/
def pyCapitalize : Word → Word
  | [] => []
  | c :: cs => c.toUpper :: cs.map Char.toLower

/-- Whether the first character exists and `isupper()`. -/
def headIsUpper : Word → Bool
  | [] => false
  | c :: _ => c.isUpper

/-- `str.strip()`: drop whitespace from both ends. -/
def pyStrip (s : Word) : Word :=
  ((s.dropWhile isSpaceChar).reverse.dropWhile isSpaceChar).reverse

/-- Accumulator-based worker for `str.split()` (split on whitespace runs,
discarding empty units).  `acc` holds the characters of the unit currently
being read, in reverse order. -/
def splitWsAux : List Char → Word → List Word
  | [], acc => if acc = [] then [] else [acc.reverse]
  | c :: cs, acc =>
    if isSpaceChar c then
      (if acc = [] then splitWsAux cs [] else acc.reverse :: splitWsAux cs [])
    else splitWsAux cs (c :: acc)

/-- `text.split()` from `process_text` (line 49 of `apply_cvc.py`). -/
def splitWs (s : List Char) : List Word := splitWsAux s []

/-- `' '.join(processed_words)` (line 79 of `apply_cvc.py`). -/
def joinWords : List Word → List Char
  | [] => []
  | [w] => w
  | w :: w2 :: ws => w ++ ' ' :: joinWords (w2 :: ws)

/-- `re.match(r'^([^\w]*)(\w+)([^\w]*)$', word)` (line 55 of `apply_cvc.py`):
an optional run of non-word characters, a nonempty run of word characters, and
an optional run of non-word characters covering the whole unit.  Returns the
three captured groups on success. -/
def match_token (u : Word) : Option (Word × Word × Word) :=
  let pre := u.takeWhile (fun c => !isWordChar c)
  let rest := u.dropWhile (fun c => !isWordChar c)
  let core := rest.takeWhile (fun c => isWordChar c)
  let suf := rest.dropWhile (fun c => isWordChar c)
  if core ≠ [] ∧ suf.all (fun c => !isWordChar c) then some (pre, core, suf)
  else none

/-- Last-writer-wins lookup in an association list, the observable behaviour
of a Python dict built by inserting the pairs in list order. -/
def pyDictLookup : List (Word × Word) → Word → Option Word
  | [], _ => none
  | p :: rest, key =>
    match pyDictLookup rest key with
    | some v => some v
    | none => if p.1 = key then some p.2 else none

/-- The pair list underlying `{k.lower(): v for k, v in reverse_lookup.items()}`
(lines 34–36 of `apply_cvc.py`). -/
def ciList (rl : List (Word × Word)) : List (Word × Word) :=
  rl.map (fun p => (pyLower p.1, p.2))

/-- The engine state: `self.reverse_lookup` and the derived
`self.case_insensitive_lookup`. -/
structure CVCProcessor where
  reverse_lookup : List (Word × Word)
  case_insensitive_lookup : List (Word × Word)
deriving DecidableEq

/-- Engine construction from a parsed mapping document (`__init__`,
lines 29–36). -/
def mkProcessor (rl : List (Word × Word)) : CVCProcessor :=
  ⟨rl, ciList rl⟩

/-- `CVCProcessor._get_canonical` (lines 90–100): exact lookup first, then
case-insensitive lookup of the lowercased word. -/
def get_canonical (proc : CVCProcessor) (word : Word) : Option Word :=
  match pyDictLookup proc.reverse_lookup word with
  | some v => some v
  | none => pyDictLookup proc.case_insensitive_lookup (pyLower word)

/-- `CVCProcessor._preserve_case` (lines 102–109). -/
def preserve_case (original canonical : Word) : Word :=
  if pyIsUpper original then pyUpper canonical
  else if headIsUpper original then pyCapitalize canonical
  else pyLower canonical

/-- One replacement record (lines 71–75). -/
structure Replacement where
  position : Nat
  original : Word
  canonical : Word
deriving DecidableEq

/-- The statistics dict returned by `process_text` (lines 81–86). -/
structure Statistics where
  total_words : Nat
  replacements_made : Nat
  replacement_rate : ℚ
  replacements : List Replacement
deriving DecidableEq

/-- The body of the `for i, word in enumerate(words)` loop (lines 53–77):
the processed unit together with the replacement record, if any.  The
`if canonical:` test on line 65 is a truthiness check, so a resolution to the
empty string behaves like a failed resolution and the unit passes through. -/
def processUnit (proc : CVCProcessor) (pc : Bool) (i : Nat) (word : Word) :
    Word × Option Replacement :=
  match match_token word with
  | none => (word, none)
  | some (pre, core, suf) =>
    match get_canonical proc core with
    | none => (word, none)
    | some canonical =>
      if canonical = [] then (word, none)
      else
        let cased := if pc then preserve_case core canonical else canonical
        (pre ++ cased ++ suf, some ⟨i, core, cased⟩)

/-- The whole enumerate loop, carrying the running index. -/
def processWords (proc : CVCProcessor) (pc : Bool) :
    Nat → List Word → List (Word × Option Replacement)
  | _, [] => []
  | i, w :: ws => processUnit proc pc i w :: processWords proc pc (i + 1) ws

/-- `CVCProcessor.process_text` (lines 38–88). -/
def process_text (proc : CVCProcessor) (text : Word) (pc : Bool) :
    Word × Statistics :=
  let words := splitWs text
  let results := processWords proc pc 0 words
  let replacements := results.filterMap Prod.snd
  (joinWords (results.map Prod.fst),
   { total_words := words.length,
     replacements_made := replacements.length,
     replacement_rate :=
       if words.length = 0 then 0
       else (replacements.length : ℚ) / (words.length : ℚ),
     replacements := replacements })

/-- Universal-newline translation performed by reading a file in text mode:
`\r\n` and bare `\r` both become `\n`. -/
def univNewlines : List Char → List Char
  | [] => []
  | '\r' :: '\n' :: rest => '\n' :: univNewlines rest
  | '\r' :: rest => '\n' :: univNewlines rest
  | c :: rest => c :: univNewlines rest

/-- `f.readlines()`: split into lines, each keeping its trailing `\n`;
a final fragment without terminator is its own line. -/
def readlines : List Char → List (List Char)
  | [] => []
  | c :: rest =>
    if c = '\n' then ['\n'] :: readlines rest
    else
      match readlines rest with
      | [] => [[c]]
      | l :: ls => (c :: l) :: ls

/-- The file-level statistics dict returned by `process_file`
(lines 138–145). -/
structure FileStats where
  total_lines : Nat
  total_words : Nat
  total_replacements : Nat
  replacement_rate : ℚ
deriving DecidableEq

/-- `CVCProcessor.process_file` (lines 111–145): the written output text
paired with the aggregate statistics. -/
def process_file (proc : CVCProcessor) (input : Word) : Word × FileStats :=
  let lines := readlines (univNewlines input)
  let processed_lines :=
    lines.map (fun l => (process_text proc (pyStrip l) true).1 ++ ['\n'])
  let tw := (lines.map (fun l =>
    (process_text proc (pyStrip l) true).2.total_words)).sum
  let tr := (lines.map (fun l =>
    (process_text proc (pyStrip l) true).2.replacements_made)).sum
  (processed_lines.flatten,
   { total_lines := lines.length,
     total_words := tw,
     total_replacements := tr,
     replacement_rate := if tw = 0 then 0 else (tr : ℚ) / (tw : ℚ) })

/-- Accumulator-based worker for `re.findall(r'\w+', s)`: the maximal runs of
word characters. -/
def wordRunsAux : List Char → Word → List Word
  | [], acc => if acc = [] then [] else [acc.reverse]
  | c :: cs, acc =>
    if isWordChar c then wordRunsAux cs (c :: acc)
    else if acc = [] then wordRunsAux cs [] else acc.reverse :: wordRunsAux cs []

/-- `re.findall(r'\w+', s)` (lines 161 and 166 of `apply_cvc.py`). -/
def wordRuns (s : List Char) : List Word := wordRunsAux s []

/-- The vocabulary statistics dict returned by `get_vocabulary_stats`
(lines 173–179). -/
structure VocabStats where
  original_vocabulary_size : Nat
  processed_vocabulary_size : Nat
  vocabulary_reduction : Int
  reduction_rate : ℚ
  total_words : Nat
deriving DecidableEq

/-- `CVCProcessor.get_vocabulary_stats` (lines 147–179), applied to the text
of the analysed file. -/
def get_vocabulary_stats (proc : CVCProcessor) (text : Word) : VocabStats :=
  let original_words := wordRuns (pyLower text)
  let original_vocab := original_words.dedup
  let processed_words := wordRuns (pyLower (process_text proc text true).1)
  let processed_vocab := processed_words.dedup
  let vocab_reduction : Int :=
    (original_vocab.length : Int) - (processed_vocab.length : Int)
  { original_vocabulary_size := original_vocab.length,
    processed_vocabulary_size := processed_vocab.length,
    vocabulary_reduction := vocab_reduction,
    reduction_rate :=
      if original_vocab.length = 0 then 0
      else (vocab_reduction : ℚ) / (original_vocab.length : ℚ),
    total_words := original_words.length }

/-- A parsed mapping document: the `reverse_lookup` and `mappings` keys may
each be present or absent; `metadata` is read with `.get` and never required.
Only `reverse_lookup` carries data the engine uses. -/
structure MappingDoc where
  reverse_lookup : Option (List (Word × Word))
  mappings : Option Unit
  metadata : Option Unit

/-- The failure modes of engine construction. -/
inductive LoadError where
  | absent
  | unparsable
  | missingKey (key : Word)
deriving DecidableEq

/-- `CVCProcessor.__init__` (lines 19–36).  The outer `Option` is the file
being present, the inner one the JSON parse succeeding; the key accesses
`data['reverse_lookup']` (line 29) and `data['mappings']` (line 30) fail in
that order when missing. -/
def loadProcessor : Option (Option MappingDoc) → Except LoadError CVCProcessor
  | none => .error .absent
  | some none => .error .unparsable
  | some (some d) =>
    match d.reverse_lookup with
    | none => .error (.missingKey "reverse_lookup".toList)
    | some rl =>
      match d.mappings with
      | none => .error (.missingKey "mappings".toList)
      | some _ => .ok (mkProcessor rl)

/-- The three capitalization images `_preserve_case` can emit for a
canonical value. -/
def casings (v : Word) : List Word := [pyUpper v, pyCapitalize v, pyLower v]

/-- Every case variant of every canonical value held by the engine consists
of word characters — the data-model invariant that a canonical is itself a
valid word. -/
def WordCharValues (proc : CVCProcessor) : Prop :=
  ∀ v ∈ (proc.reverse_lookup ++ proc.case_insensitive_lookup).map Prod.snd,
    ∀ w ∈ casings v, ∀ c ∈ w, isWordChar c = true

/-- A canonical surface form is stable when resolving it either fails or
reproduces it after case preservation. -/
def stableValueB (proc : CVCProcessor) (w : Word) : Bool :=
  match get_canonical proc w with
  | none => true
  | some k => preserve_case w k == w

/-- Every case variant of every canonical value held by the engine is a
nonempty word-character token that the engine maps back to itself (or not at
all). -/
def StableProcessor (proc : CVCProcessor) : Prop :=
  ∀ v ∈ (proc.reverse_lookup ++ proc.case_insensitive_lookup).map Prod.snd,
    ∀ w ∈ casings v,
      w ≠ [] ∧ (∀ c ∈ w, isWordChar c = true) ∧ stableValueB proc w = true

/-- Concrete engine with the single mapping enormous→big. -/
def procSyn : CVCProcessor := mkProcessor [("enormous".toList, "big".toList)]

/-- Concrete reverse lookup whose exact-case and case-insensitive indexes
disagree. -/
def rlMixed : List (Word × Word) :=
  [("Enormous".toList, "big".toList), ("enormous".toList, "huge".toList)]

/-- Engine built from `rlMixed`. -/
def procMixed : CVCProcessor := mkProcessor rlMixed

/-- Engine with the chained mappings bright→smart and luminous→bright, as in
the repository's own mapping data. -/
def procBright : CVCProcessor :=
  mkProcessor [("bright".toList, "smart".toList),
               ("luminous".toList, "bright".toList)]

/-- Engine mapping five synonyms of big to big. -/
def procBig5 : CVCProcessor :=
  mkProcessor [("large".toList, "big".toList), ("huge".toList, "big".toList),
               ("enormous".toList, "big".toList),
               ("gigantic".toList, "big".toList),
               ("massive".toList, "big".toList)]

/-- Engine whose exact-case keys send two casings of one lowercase word to
different canonicals. -/
def procCase : CVCProcessor :=
  mkProcessor [("AB".toList, "cd".toList), ("Ab".toList, "ef".toList)]

instance (proc : CVCProcessor) : Decidable (WordCharValues proc) := by
  unfold WordCharValues; infer_instance

instance (proc : CVCProcessor) : Decidable (StableProcessor proc) := by
  unfold StableProcessor; infer_instance

/-! ### Character-class facts -/

lemma space_not_word {c : Char} (h : isSpaceChar c = true) : isWordChar c = false := by
  simp only [isSpaceChar, Bool.or_eq_true, beq_iff_eq] at h
  rcases h with ((((h | h) | h) | h) | h) | h <;> subst h <;> decide

lemma word_not_space {c : Char} (h : isWordChar c = true) : isSpaceChar c = false := by
  cases hs : isSpaceChar c with
  | false => rfl
  | true => rw [space_not_word hs] at h; exact absurd h (by simp)

/-! ### takeWhile / dropWhile decompositions -/

lemma takeWhile_dropWhile_append {p : Char → Bool} {a b : List Char}
    (ha : ∀ x ∈ a, p x = true) (hb : ∀ d, b.head? = some d → p d = false) :
    (a ++ b).takeWhile p = a ∧ (a ++ b).dropWhile p = b := by
  induction a with
  | nil =>
    cases b with
    | nil => simp
    | cons d bs =>
      have hd := hb d rfl
      simp [List.takeWhile_cons, List.dropWhile_cons, hd]
  | cons x xs ih =>
    have hx := ha x (by simp)
    have hrec := ih (fun y hy => ha y (by simp [hy]))
    simp [List.takeWhile_cons, List.dropWhile_cons, hx, hrec.1, hrec.2]

/-! ### Tokenizer structure -/

lemma match_token_eq_some {u pre core suf : Word}
    (h : match_token u = some (pre, core, suf)) :
    u = pre ++ core ++ suf ∧ (∀ c ∈ pre, isWordChar c = false) ∧ core ≠ [] ∧
    (∀ c ∈ core, isWordChar c = true) ∧ (∀ c ∈ suf, isWordChar c = false) := by
  simp only [match_token] at h
  by_cases hcond : (u.dropWhile (fun c => !isWordChar c)).takeWhile
      (fun c => isWordChar c) ≠ [] ∧
      (((u.dropWhile (fun c => !isWordChar c)).dropWhile
        (fun c => isWordChar c)).all fun c => !isWordChar c) = true
  · rw [if_pos hcond] at h
    injection h with h'
    obtain ⟨h1, h2⟩ := Prod.mk.injEq .. ▸ h'
    obtain ⟨h2, h3⟩ := Prod.mk.injEq .. ▸ h2
    subst h1; subst h2; subst h3
    refine ⟨?_, ?_, hcond.1, ?_, ?_⟩
    · rw [List.append_assoc, List.takeWhile_append_dropWhile,
        List.takeWhile_append_dropWhile]
    · intro c hc'
      have := List.mem_takeWhile_imp hc'
      simpa using this
    · intro c hc'
      have := List.mem_takeWhile_imp hc'
      simpa using this
    · intro c hc'
      have := hcond.2
      rw [List.all_eq_true] at this
      simpa using this c hc'
  · rw [if_neg hcond] at h
    exact absurd h (by simp)

lemma match_token_reassemble {pre core suf : Word}
    (hp : ∀ c ∈ pre, isWordChar c = false) (hc : core ≠ [])
    (hcw : ∀ c ∈ core, isWordChar c = true)
    (hs : ∀ c ∈ suf, isWordChar c = false) :
    match_token (pre ++ core ++ suf) = some (pre, core, suf) := by
  obtain ⟨c0, cs, rfl⟩ : ∃ c0 cs, core = c0 :: cs := by
    cases core with
    | nil => exact absurd rfl hc
    | cons c0 cs => exact ⟨c0, cs, rfl⟩
  have h1 := takeWhile_dropWhile_append (p := fun c => !isWordChar c)
    (a := pre) (b := (c0 :: cs) ++ suf)
    (fun x hx => by simp [hp x hx])
    (fun d hd => by
      simp only [List.cons_append, List.head?_cons, Option.some.injEq] at hd
      subst hd
      simp [hcw c0 (by simp)])
  have h2 := takeWhile_dropWhile_append (p := fun c => isWordChar c)
    (a := c0 :: cs) (b := suf)
    (fun x hx => hcw x hx)
    (fun d hd => by
      cases suf with
      | nil => simp at hd
      | cons s0 ss =>
        simp only [List.head?_cons, Option.some.injEq] at hd
        subst hd
        exact hs s0 (by simp))
  simp only [match_token]
  rw [List.append_assoc, h1.1, h1.2, h2.1, h2.2]
  rw [if_pos ⟨by simp, List.all_eq_true.mpr (fun x hx => by simp [hs x hx])⟩]

/-! ### Dictionary lookup -/

lemma pyDictLookup_mem_values {l : List (Word × Word)} {k v : Word}
    (h : pyDictLookup l k = some v) : v ∈ l.map Prod.snd := by
  induction l with
  | nil => simp [pyDictLookup] at h
  | cons p rest ih =>
    simp only [pyDictLookup] at h
    simp only [List.map_cons, List.mem_cons]
    cases hr : pyDictLookup rest k with
    | some w =>
      rw [hr] at h; injection h with h; subst h
      exact Or.inr (ih hr)
    | none =>
      rw [hr] at h
      by_cases he : p.1 = k
      · rw [if_pos he] at h; injection h with h; subst h; exact Or.inl rfl
      · rw [if_neg he] at h; exact absurd h (by simp)

lemma pyDictLookup_isSome_iff {l : List (Word × Word)} {k : Word} :
    (pyDictLookup l k).isSome = true ↔ k ∈ l.map Prod.fst := by
  induction l with
  | nil => simp [pyDictLookup]
  | cons p rest ih =>
    simp only [pyDictLookup, List.map_cons, List.mem_cons]
    cases hr : pyDictLookup rest k with
    | some w =>
      simp only [Option.isSome_some, true_iff]
      exact Or.inr (ih.mp (by rw [hr]; rfl))
    | none =>
      have hnm : ¬ k ∈ rest.map Prod.fst := fun hm => by
        have := ih.mpr hm; rw [hr] at this; exact absurd this (by simp)
      by_cases he : p.1 = k
      · simp [he, Eq.comm]
      · simp only [if_neg he, Option.isSome_none, Bool.false_eq_true, false_iff,
          not_or]
        exact ⟨fun h => he h.symm, hnm⟩

lemma pyDictLookup_eq_getLast_filter (l : List (Word × Word)) (k : Word) :
    pyDictLookup l k = ((l.filter (fun p => p.1 == k)).getLast?).map Prod.snd := by
  induction l with
  | nil => rfl
  | cons p rest ih =>
    simp only [pyDictLookup, List.filter_cons, beq_iff_eq]
    cases hf : rest.filter (fun p => p.1 == k) with
    | nil =>
      have hr : pyDictLookup rest k = none := by rw [ih, hf]; rfl
      simp only [hr]
      by_cases he : p.1 = k
      · simp only [if_pos he, hf]
        simp
      · simp only [if_neg he, hf]
        rfl
    | cons q qs =>
      have hr : pyDictLookup rest k = some ((q :: qs).getLast (by simp)).2 := by
        rw [ih, hf, List.getLast?_eq_getLast _ (by simp)]
        rfl
      simp only [hr]
      by_cases he : p.1 = k
      · simp only [if_pos he, hf]
        rw [List.getLast?_cons_cons, List.getLast?_eq_getLast _ (by simp)]
        rfl
      · simp only [if_neg he, hf]
        rw [List.getLast?_eq_getLast _ (by simp)]
        rfl

/-! ### Splitting on whitespace and joining with single spaces -/

lemma splitWsAux_units :
    ∀ (s : List Char) (acc : Word), (∀ c ∈ acc, isSpaceChar c = false) →
      ∀ w ∈ splitWsAux s acc, w ≠ [] ∧ ∀ c ∈ w, isSpaceChar c = false := by
  intro s
  induction s with
  | nil =>
    intro acc hacc w hw
    simp only [splitWsAux] at hw
    by_cases ha : acc = []
    · rw [if_pos ha] at hw; simp at hw
    · rw [if_neg ha] at hw
      simp only [List.mem_singleton] at hw
      subst hw
      refine ⟨by simpa using ha, fun c hc => hacc c (by simpa using hc)⟩
  | cons x xs ih =>
    intro acc hacc w hw
    simp only [splitWsAux] at hw
    by_cases hx : isSpaceChar x = true
    · rw [if_pos hx] at hw
      by_cases ha : acc = []
      · rw [if_pos ha] at hw
        exact ih [] (by simp) w hw
      · rw [if_neg ha] at hw
        rcases List.mem_cons.mp hw with hw | hw
        · subst hw
          refine ⟨by simpa using ha, fun c hc => hacc c (by simpa using hc)⟩
        · exact ih [] (by simp) w hw
    · rw [if_neg hx] at hw
      refine ih (x :: acc) ?_ w hw
      intro c hc
      rcases List.mem_cons.mp hc with hc | hc
      · subst hc; simpa using hx
      · exact hacc c hc

/-- Every unit produced by `split()` is nonempty and whitespace-free. -/
lemma splitWs_units (s : List Char) :
    ∀ w ∈ splitWs s, w ≠ [] ∧ ∀ c ∈ w, isSpaceChar c = false :=
  splitWsAux_units s [] (by simp)

lemma splitWsAux_word_block :
    ∀ (w : Word) (s : List Char) (acc : Word), (∀ c ∈ w, isSpaceChar c = false) →
      splitWsAux (w ++ s) acc = splitWsAux s (w.reverse ++ acc) := by
  intro w
  induction w with
  | nil => intro s acc _; simp
  | cons x xs ih =>
    intro s acc hw
    have hx : isSpaceChar x = false := hw x (by simp)
    simp only [List.cons_append, splitWsAux, hx, Bool.false_eq_true, if_false,
      List.append_eq]
    rw [ih s (x :: acc) (fun c hc => hw c (by simp [hc]))]
    simp

/-- Splitting is a left inverse of joining, for nonempty whitespace-free
units. -/
lemma splitWs_joinWords :
    ∀ (ws : List Word), (∀ w ∈ ws, w ≠ [] ∧ ∀ c ∈ w, isSpaceChar c = false) →
      splitWs (joinWords ws) = ws := by
  intro ws
  induction ws with
  | nil => intro _; rfl
  | cons w ws ih =>
    intro h
    obtain ⟨hw, hws⟩ := h w (by simp)
    cases ws with
    | nil =>
      show splitWsAux (joinWords [w]) [] = [w]
      have : joinWords [w] = w ++ [] := by simp [joinWords]
      rw [this, splitWsAux_word_block w [] [] hws]
      simp only [splitWsAux, List.append_nil]
      rw [if_neg (by simpa using hw)]
      simp
    | cons w2 ws2 =>
      show splitWsAux (joinWords (w :: w2 :: ws2)) [] = w :: w2 :: ws2
      have hj : joinWords (w :: w2 :: ws2) = w ++ ' ' :: joinWords (w2 :: ws2) := rfl
      rw [hj, splitWsAux_word_block w _ [] hws]
      simp only [splitWsAux, List.append_nil]
      rw [if_pos (by decide), if_neg (by simpa using hw)]
      simp only [List.reverse_reverse]
      have := ih (fun u hu => h u (by simp [hu]))
      exact congrArg (w :: ·) this

/-- Every character of a join is a separating space or a character of some
unit. -/
lemma joinWords_mem {c : Char} :
    ∀ {ws : List Word}, c ∈ joinWords ws → c = ' ' ∨ ∃ w ∈ ws, c ∈ w := by
  intro ws
  induction ws with
  | nil => intro h; simp [joinWords] at h
  | cons w ws ih =>
    intro h
    cases ws with
    | nil =>
      simp only [joinWords] at h
      exact Or.inr ⟨w, by simp, h⟩
    | cons w2 ws2 =>
      simp only [joinWords, List.mem_append, List.mem_cons] at h
      rcases h with h | h | h
      · exact Or.inr ⟨w, by simp, h⟩
      · exact Or.inl h
      · rcases ih h with h' | ⟨u, hu, hc⟩
        · exact Or.inl h'
        · exact Or.inr ⟨u, by simp [List.mem_cons.mp hu], hc⟩

/-! ### Canonical values and case preservation -/

lemma preserve_case_mem_casings (o k : Word) :
    preserve_case o k ∈ casings k := by
  unfold preserve_case casings
  by_cases h1 : pyIsUpper o = true
  · simp [h1]
  · by_cases h2 : headIsUpper o = true
    · simp [h1, h2]
    · simp [h1, h2]

lemma get_canonical_mem_values {proc : CVCProcessor} {w v : Word}
    (h : get_canonical proc w = some v) :
    v ∈ (proc.reverse_lookup ++ proc.case_insensitive_lookup).map Prod.snd := by
  unfold get_canonical at h
  rw [List.map_append, List.mem_append]
  cases hr : pyDictLookup proc.reverse_lookup w with
  | some x =>
    rw [hr] at h; injection h with h; subst h
    exact Or.inl (pyDictLookup_mem_values hr)
  | none =>
    rw [hr] at h
    exact Or.inr (pyDictLookup_mem_values h)

/-! ### Per-unit behaviour of the canonicalizer -/

lemma processUnit_fst_chars {proc : CVCProcessor} (H : WordCharValues proc)
    (i : Nat) (w : Word) :
    ∀ ch ∈ (processUnit proc true i w).1, ch ∈ w ∨ isWordChar ch = true := by
  intro ch hch
  cases hm : match_token w with
  | none =>
    simp only [processUnit, hm] at hch
    exact Or.inl hch
  | some t =>
    obtain ⟨pre, core, suf⟩ := t
    cases hg : get_canonical proc core with
    | none =>
      simp only [processUnit, hm, hg] at hch
      exact Or.inl hch
    | some k =>
      by_cases hk : k = []
      · simp only [processUnit, hm, hg, if_pos hk] at hch
        exact Or.inl hch
      · simp only [processUnit, hm, hg, if_neg hk, if_true] at hch
        obtain ⟨hu, _, _, _, _⟩ := match_token_eq_some hm
        simp only [List.mem_append] at hch
        rcases hch with (hch | hch) | hch
        · exact Or.inl (by rw [hu]; simp [hch])
        · exact Or.inr (H k (get_canonical_mem_values hg) _
            (preserve_case_mem_casings core k) ch hch)
        · exact Or.inl (by rw [hu]; simp [hch])

lemma processUnit_fst_stable {proc : CVCProcessor} (H : StableProcessor proc)
    {w : Word} (hw : w ≠ []) (hws : ∀ c ∈ w, isSpaceChar c = false) (i : Nat) :
    (processUnit proc true i w).1 ≠ [] ∧
    (∀ c ∈ (processUnit proc true i w).1, isSpaceChar c = false) ∧
    ∀ j, (processUnit proc true j (processUnit proc true i w).1).1
          = (processUnit proc true i w).1 := by
  cases hm : match_token w with
  | none =>
    have hfst : (processUnit proc true i w).1 = w := by
      simp only [processUnit, hm]
    rw [hfst]
    refine ⟨hw, hws, fun j => ?_⟩
    simp only [processUnit, hm]
  | some t =>
    obtain ⟨pre, core, suf⟩ := t
    obtain ⟨hu, hpre, hcne, hcore, hsuf⟩ := match_token_eq_some hm
    cases hg : get_canonical proc core with
    | none =>
      have hfst : (processUnit proc true i w).1 = w := by
        simp only [processUnit, hm, hg]
      rw [hfst]
      refine ⟨hw, hws, fun j => ?_⟩
      simp only [processUnit, hm, hg]
    | some k =>
      by_cases hk : k = []
      · have hfst : (processUnit proc true i w).1 = w := by
          simp only [processUnit, hm, hg, if_pos hk]
        rw [hfst]
        refine ⟨hw, hws, fun j => ?_⟩
        simp only [processUnit, hm, hg, if_pos hk]
      · have hfst : (processUnit proc true i w).1
            = pre ++ preserve_case core k ++ suf := by
          simp only [processUnit, hm, hg, if_neg hk, if_true]
        obtain ⟨hkne, hkw, hkstable⟩ :=
          H k (get_canonical_mem_values hg) _ (preserve_case_mem_casings core k)
        rw [hfst]
        have hpw : ∀ c ∈ pre, c ∈ w := fun c hc => by rw [hu]; simp [hc]
        have hsw : ∀ c ∈ suf, c ∈ w := fun c hc => by rw [hu]; simp [hc]
        refine ⟨?_, ?_, ?_⟩
        · intro habs
          rcases List.append_eq_nil.mp habs with ⟨h1, _⟩
          rcases List.append_eq_nil.mp h1 with ⟨_, h2⟩
          exact hkne h2
        · intro c hc
          simp only [List.mem_append] at hc
          rcases hc with (hc | hc) | hc
          · exact hws c (hpw c hc)
          · exact word_not_space (hkw c hc)
          · exact hws c (hsw c hc)
        · intro j
          have hm2 : match_token (pre ++ preserve_case core k ++ suf)
              = some (pre, preserve_case core k, suf) :=
            match_token_reassemble hpre hkne hkw hsuf
          cases hg2 : get_canonical proc (preserve_case core k) with
          | none => simp only [processUnit, hm2, hg2]
          | some k2 =>
            by_cases hk2 : k2 = []
            · simp only [processUnit, hm2, hg2, if_pos hk2]
            · have hpc : preserve_case (preserve_case core k) k2
                  = preserve_case core k := by
                have hsv := hkstable
                unfold stableValueB at hsv
                rw [hg2] at hsv
                exact beq_iff_eq.mp hsv
              simp only [processUnit, hm2, hg2, if_neg hk2, if_true, hpc]

lemma processWords_fst_stable {proc : CVCProcessor} (H : StableProcessor proc) :
    ∀ (ws : List Word),
      (∀ w ∈ ws, w ≠ [] ∧ ∀ c ∈ w, isSpaceChar c = false) →
      ∀ i, (∀ u ∈ (processWords proc true i ws).map Prod.fst,
              u ≠ [] ∧ ∀ c ∈ u, isSpaceChar c = false) ∧
        ∀ j, (processWords proc true j
                ((processWords proc true i ws).map Prod.fst)).map Prod.fst
             = (processWords proc true i ws).map Prod.fst := by
  intro ws
  induction ws with
  | nil => intro _ i; exact ⟨by simp [processWords], fun j => by simp [processWords]⟩
  | cons w ws ih =>
    intro h i
    obtain ⟨hw, hws⟩ := h w (by simp)
    have hunit := processUnit_fst_stable H hw hws i
    have hrest := ih (fun u hu => h u (by simp [hu])) (i + 1)
    constructor
    · intro u hu
      simp only [processWords, List.map_cons, List.mem_cons] at hu
      rcases hu with hu | hu
      · subst hu; exact ⟨hunit.1, hunit.2.1⟩
      · exact hrest.1 u hu
    · intro j
      simp only [processWords, List.map_cons]
      rw [hunit.2.2 j, hrest.2 (j + 1)]

/-! ### Shape of `process_text` -/

lemma process_text_fst (proc : CVCProcessor) (t : Word) (pc : Bool) :
    (process_text proc t pc).1
      = joinWords ((processWords proc pc 0 (splitWs t)).map Prod.fst) := rfl

lemma process_text_no_newline {proc : CVCProcessor} (H : WordCharValues proc)
    (t : Word) : '\n' ∉ (process_text proc t true).1 := by
  intro hmem
  rw [process_text_fst] at hmem
  rcases joinWords_mem hmem with h | ⟨u, hu, hc⟩
  · exact absurd h (by decide)
  · have hgen : ∃ ws, (∀ w ∈ ws, w ∈ splitWs t) ∧
        ∃ i, u ∈ (processWords proc true i ws).map Prod.fst :=
      ⟨splitWs t, fun w hw => hw, 0, hu⟩
    obtain ⟨ws, hsub, i, hu'⟩ := hgen
    clear hu
    induction ws generalizing i with
    | nil => simp [processWords] at hu'
    | cons w ws ih =>
      simp only [processWords, List.map_cons, List.mem_cons] at hu'
      rcases hu' with hu' | hu'
      · subst hu'
        rcases processUnit_fst_chars H i w '\n' hc with hin | hword
        · have := (splitWs_units t w (hsub w (by simp))).2 '\n' hin
          exact absurd this (by decide)
        · exact absurd hword (by decide)
      · exact ih (fun x hx => hsub x (by simp [hx])) (i + 1) hu'

/-! ### Lines of the written output -/

lemma readlines_append {b rest : List Char} (hb : '\n' ∉ b) :
    readlines (b ++ '\n' :: rest) = (b ++ ['\n']) :: readlines rest := by
  induction b with
  | nil => simp [readlines]
  | cons x xs ih =>
    have hx : ¬ x = '\n' := fun h => hb (by simp [h])
    have hxs : '\n' ∉ xs := fun h => hb (by simp [h])
    simp only [List.cons_append, readlines, if_neg hx, List.append_eq, ih hxs]

lemma readlines_flatten_map {bodies : List (List Char)}
    (hb : ∀ b ∈ bodies, '\n' ∉ b) :
    readlines ((bodies.map (fun b => b ++ ['\n'])).flatten)
      = bodies.map (fun b => b ++ ['\n']) := by
  induction bodies with
  | nil => rfl
  | cons b bs ih =>
    simp only [List.map_cons, List.flatten_cons]
    have : (b ++ ['\n']) ++ (bs.map (fun b => b ++ ['\n'])).flatten
        = b ++ '\n' :: (bs.map (fun b => b ++ ['\n'])).flatten := by
      simp
    rw [this, readlines_append (hb b (by simp)), ih (fun x hx => hb x (by simp [hx]))]

/-! ### Claim theorems -/

/-- Claim C1: for every word, `resolve_canonical` first tries an exact-case
lookup in the reverse lookup index; on a miss it tries the lowercased word in
the case-insensitive index; when both miss it returns nothing; and whenever
the word is a key of the reverse lookup index, the exact-case mapping wins. -/
theorem resolve_canonical_order (proc : CVCProcessor) (w : Word) :
    (∀ v, pyDictLookup proc.reverse_lookup w = some v →
       get_canonical proc w = some v) ∧
    (pyDictLookup proc.reverse_lookup w = none →
       get_canonical proc w
         = pyDictLookup proc.case_insensitive_lookup (pyLower w)) ∧
    (pyDictLookup proc.reverse_lookup w = none →
       pyDictLookup proc.case_insensitive_lookup (pyLower w) = none →
       get_canonical proc w = none) ∧
    (w ∈ proc.reverse_lookup.map Prod.fst →
       get_canonical proc w = pyDictLookup proc.reverse_lookup w ∧
       (pyDictLookup proc.reverse_lookup w).isSome = true) := by
  refine ⟨?_, ?_, ?_, ?_⟩
  · intro v hv; unfold get_canonical; rw [hv]
  · intro h; unfold get_canonical; rw [h]
  · intro h1 h2; unfold get_canonical; rw [h1, h2]
  · intro hm
    have hs := pyDictLookup_isSome_iff.mpr hm
    obtain ⟨v, hv⟩ := Option.isSome_iff_exists.mp hs
    exact ⟨by unfold get_canonical; rw [hv], hs⟩

/-- Witness for C1 on a reverse lookup where the exact-case and
case-insensitive indexes disagree: `Enormous` resolves through the exact
index to `big`, although the case-insensitive index maps `enormous` to
`huge`. -/
theorem resolve_canonical_order_witness :
    ("Enormous".toList ∈ procMixed.reverse_lookup.map Prod.fst) ∧
    get_canonical procMixed "Enormous".toList
      = pyDictLookup procMixed.reverse_lookup "Enormous".toList ∧
    get_canonical procMixed "Enormous".toList = some "big".toList ∧
    pyDictLookup procMixed.case_insensitive_lookup (pyLower "Enormous".toList)
      = some "huge".toList :=
  ⟨by decide,
   ((resolve_canonical_order procMixed "Enormous".toList).2.2.2 (by decide)).1,
   by decide, by decide⟩

/-- Claim C2: with `preserve_case` on, a core word that resolves to a
nonempty canonical (the truthiness test of `if canonical:` on line 65; an
empty-string canonical is falsy and the unit passes through with no record)
is replaced by the canonical uppercased when the core `isupper()`,
capitalized when only the core's first character is uppercase, and lowercased
otherwise; concretely enormous→big sends `ENORMOUS` to `BIG`, `Enormous` to
`Big` and `enormous` to `big`. -/
theorem case_preservation_policy :
    (∀ (proc : CVCProcessor) (i : Nat) (w pre core suf k : Word),
       match_token w = some (pre, core, suf) →
       get_canonical proc core = some k → k ≠ [] →
       (processUnit proc true i w).1
         = pre ++ (if pyIsUpper core then pyUpper k
             else if headIsUpper core then pyCapitalize k
             else pyLower k) ++ suf) ∧
    (∀ (proc : CVCProcessor) (i : Nat) (w pre core suf : Word),
       match_token w = some (pre, core, suf) →
       get_canonical proc core = some [] →
       processUnit proc true i w = (w, none)) ∧
    (process_text procSyn "ENORMOUS".toList true).1 = "BIG".toList ∧
    (process_text procSyn "Enormous".toList true).1 = "Big".toList ∧
    (process_text procSyn "enormous".toList true).1 = "big".toList := by
  refine ⟨?_, ?_, by decide, by decide, by decide⟩
  · intro proc i w pre core suf k hm hk hkne
    simp only [processUnit, hm, hk, if_neg hkne, if_true]
    rfl
  · intro proc i w pre core suf hm hk
    simp [processUnit, hm, hk]

/-- Witness for C2: the fully uppercase unit `ENORMOUS!` is rewritten to the
uppercased canonical with its punctuation reattached. -/
theorem case_preservation_policy_witness :
    match_token "ENORMOUS!".toList
      = some (([] : Word), "ENORMOUS".toList, "!".toList) ∧
    get_canonical procSyn "ENORMOUS".toList = some "big".toList ∧
    (processUnit procSyn true 0 "ENORMOUS!".toList).1
      = [] ++ (if pyIsUpper "ENORMOUS".toList then pyUpper "big".toList
          else if headIsUpper "ENORMOUS".toList then pyCapitalize "big".toList
          else pyLower "big".toList) ++ "!".toList :=
  ⟨by decide, by decide,
   case_preservation_policy.1 procSyn 0 "ENORMOUS!".toList []
     "ENORMOUS".toList "!".toList "big".toList (by decide) (by decide)
     (by decide)⟩

/-- Claim C5: `process_text` on the empty text reports zero words, zero
replacements and rate zero, and in general the replacement rate is the
guarded quotient replacements/words, zero when there are no words. -/
theorem rate_guard (proc : CVCProcessor) :
    (process_text proc [] true).2.total_words = 0 ∧
    (process_text proc [] true).2.replacements_made = 0 ∧
    (process_text proc [] true).2.replacement_rate = 0 ∧
    ∀ (t : Word) (pc : Bool),
      (process_text proc t pc).2.replacement_rate
        = if (process_text proc t pc).2.total_words = 0 then 0
          else ((process_text proc t pc).2.replacements_made : ℚ)
               / ((process_text proc t pc).2.total_words : ℚ) :=
  ⟨rfl, rfl, rfl, fun t pc => rfl⟩

/-- Claim C10: `process_text` output is fully determined by the
whitespace-split units, so runs of whitespace collapse to single spaces and
leading/trailing whitespace is dropped; a text can change with zero
replacements, even though each individual unit passes through exactly. -/
theorem whitespace_normalization :
    (∀ (proc : CVCProcessor) (pc : Bool) (t1 t2 : Word),
       splitWs t1 = splitWs t2 →
       process_text proc t1 pc = process_text proc t2 pc) ∧
    (process_text procSyn "  hello   world ".toList true).2.replacements_made
      = 0 ∧
    (process_text procSyn "  hello   world ".toList true).1
      = "hello world".toList ∧
    (process_text procSyn "  hello   world ".toList true).1
      ≠ "  hello   world ".toList := by
  refine ⟨?_, by decide, by decide, by decide⟩
  intro proc pc t1 t2 h
  simp only [process_text, h]

/-- Witness for C10: two texts with the same units are processed to identical
results. -/
theorem whitespace_normalization_witness :
    splitWs "a  b".toList = splitWs " a b ".toList ∧
    process_text procSyn "a  b".toList true
      = process_text procSyn " a b ".toList true :=
  ⟨by decide, whitespace_normalization.1 procSyn true _ _ (by decide)⟩

/-- Claim C6 (counterexample): with the chained mappings bright→smart and
luminous→bright — both present in the repository's mapping data — processing
`luminous` twice gives `smart`, not the single-pass output `bright`, so
`process_text` is not idempotent on output text. -/
theorem idempotence_counterexample :
    (process_text procBright
        ((process_text procBright "luminous".toList true).1) true).1
      ≠ (process_text procBright "luminous".toList true).1 := by decide

/-- Claim C6 (amended): canonicalization is idempotent on output text for
every input whenever the engine is stable, i.e. every case variant of every
canonical value held by its indexes is a nonempty word-character token that
either fails to resolve or resolves and re-cases back to itself. -/
theorem process_text_idempotent (proc : CVCProcessor)
    (H : StableProcessor proc) (t : Word) :
    (process_text proc (process_text proc t true).1 true).1
      = (process_text proc t true).1 := by
  have hG := processWords_fst_stable H (splitWs t) (splitWs_units t) 0
  rw [process_text_fst proc t true,
    process_text_fst proc
      (joinWords ((processWords proc true 0 (splitWs t)).map Prod.fst)) true,
    splitWs_joinWords _ hG.1, hG.2 0]

/-- Witness for the amended C6: the enormous→big engine is stable, and the
theorem applies to a concrete mixed-case text. -/
theorem process_text_idempotent_witness :
    (process_text procSyn
        ((process_text procSyn "The ENORMOUS building.".toList true).1) true).1
      = (process_text procSyn "The ENORMOUS building.".toList true).1 :=
  process_text_idempotent procSyn (by decide) "The ENORMOUS building.".toList

/-- Claim C3: for every input file, `process_file` reports `total_lines`
equal to the number of input lines, and the written output has exactly one
line per input line, in input order, each the processed stripped line
followed by exactly one newline (the processed line itself contains no
newline). The hypothesis is the data-model invariant that every canonical
value is a word-character token in each of its case variants. -/
theorem process_file_line_count (proc : CVCProcessor) (input : Word)
    (H : WordCharValues proc) :
    (process_file proc input).2.total_lines
      = (readlines (univNewlines input)).length ∧
    readlines (process_file proc input).1
      = (readlines (univNewlines input)).map
          (fun l => (process_text proc (pyStrip l) true).1 ++ ['\n']) ∧
    ∀ l ∈ readlines (univNewlines input),
      '\n' ∉ (process_text proc (pyStrip l) true).1 := by
  refine ⟨rfl, ?_, fun l _ => process_text_no_newline H (pyStrip l)⟩
  have hbody : ∀ b ∈ (readlines (univNewlines input)).map
      (fun l => (process_text proc (pyStrip l) true).1), '\n' ∉ b := by
    intro b hb
    obtain ⟨l, hl, rfl⟩ := List.mem_map.mp hb
    exact process_text_no_newline H (pyStrip l)
  have h1 : (process_file proc input).1
      = (((readlines (univNewlines input)).map
          (fun l => (process_text proc (pyStrip l) true).1)).map
          (fun b => b ++ ['\n'])).flatten := by
    unfold process_file
    simp only [List.map_map]
    rfl
  rw [h1, readlines_flatten_map hbody, List.map_map]
  rfl

/-- Witness for C3 on a three-line file (including a blank interior line and
an unterminated final line) processed by the enormous→big engine. -/
theorem process_file_line_count_witness :
    (process_file procSyn "enormous world\n\nx".toList).2.total_lines
      = (readlines (univNewlines "enormous world\n\nx".toList)).length ∧
    readlines (process_file procSyn "enormous world\n\nx".toList).1
      = (readlines (univNewlines "enormous world\n\nx".toList)).map
          (fun l => (process_text procSyn (pyStrip l) true).1 ++ ['\n']) ∧
    ∀ l ∈ readlines (univNewlines "enormous world\n\nx".toList),
      '\n' ∉ (process_text procSyn (pyStrip l) true).1 :=
  process_file_line_count procSyn "enormous world\n\nx".toList (by decide)

/-- Claim C4: the file-level `total_words` and `total_replacements` are the
sums of the per-line statistics and the file-level rate is recomputed from
those sums (zero when there are no words), not averaged per line; on the
two-line file with 2 words/1 replacement and 3 words/0 replacements the
totals are 5 and 1 and the rate is 0.2. -/
theorem file_aggregation (proc : CVCProcessor) (input : Word) :
    (process_file proc input).2.total_words
      = ((readlines (univNewlines input)).map
          (fun l => (process_text proc (pyStrip l) true).2.total_words)).sum ∧
    (process_file proc input).2.total_replacements
      = ((readlines (univNewlines input)).map
          (fun l =>
            (process_text proc (pyStrip l) true).2.replacements_made)).sum ∧
    (process_file proc input).2.replacement_rate
      = (if (process_file proc input).2.total_words = 0 then 0
         else ((process_file proc input).2.total_replacements : ℚ)
              / ((process_file proc input).2.total_words : ℚ)) ∧
    (process_file procSyn
        "enormous building\nthe cat sat\n".toList).2.total_words = 5 ∧
    (process_file procSyn
        "enormous building\nthe cat sat\n".toList).2.total_replacements = 1 ∧
    (process_file procSyn
        "enormous building\nthe cat sat\n".toList).2.replacement_rate = 0.2 := by
  refine ⟨rfl, rfl, rfl, by decide, by decide, ?_⟩
  have htw : (process_file procSyn
      "enormous building\nthe cat sat\n".toList).2.total_words = 5 := by decide
  have htr : (process_file procSyn
      "enormous building\nthe cat sat\n".toList).2.total_replacements = 1 := by
    decide
  have hrate : (process_file procSyn
      "enormous building\nthe cat sat\n".toList).2.replacement_rate
      = if (process_file procSyn
            "enormous building\nthe cat sat\n".toList).2.total_words = 0 then 0
        else ((process_file procSyn
            "enormous building\nthe cat sat\n".toList).2.total_replacements : ℚ)
          / ((process_file procSyn
            "enormous building\nthe cat sat\n".toList).2.total_words : ℚ) := rfl
  rw [hrate, htw, htr]
  norm_num

/-- Claim C7 (counterexample): the unit `a.b` contains word-character runs,
yet the prefix/core/suffix pattern fails on it, so the pattern does not fail
exactly when the unit has no word-character run. -/
theorem tokenizer_counterexample :
    ¬ (match_token "a.b".toList = none ↔
        ∀ c ∈ "a.b".toList, isWordChar c = false) := by decide

/-- Claim C7 (amended): the tokenizer pattern fails exactly when the unit
does not decompose as non-word prefix, nonempty word-character core, and
non-word suffix — i.e. when it has no word-character run or more than one
maximal word-character run — and a failed unit passes through unchanged with
no replacement record. -/
theorem tokenizer_match_condition (u : Word) :
    (match_token u = none ↔
      ¬ ∃ pre core suf : Word, u = pre ++ core ++ suf ∧
          (∀ c ∈ pre, isWordChar c = false) ∧ core ≠ [] ∧
          (∀ c ∈ core, isWordChar c = true) ∧
          (∀ c ∈ suf, isWordChar c = false)) ∧
    (match_token u = none → ∀ (proc : CVCProcessor) (pc : Bool) (i : Nat),
       processUnit proc pc i u = (u, none)) := by
  constructor
  · constructor
    · intro hn hex
      obtain ⟨pre, core, suf, hu, hp, hc, hcw, hs⟩ := hex
      rw [hu, match_token_reassemble hp hc hcw hs] at hn
      exact absurd hn (by simp)
    · intro hne
      cases h : match_token u with
      | none => rfl
      | some t =>
        obtain ⟨pre, core, suf⟩ := t
        obtain ⟨hu, hp, hc, hcw, hs⟩ := match_token_eq_some h
        exact absurd ⟨pre, core, suf, hu, hp, hc, hcw, hs⟩ hne
  · intro hn proc pc i
    simp only [processUnit, hn]

/-- Witness for the amended C7: the bare punctuation unit `?!` fails the
pattern and passes through unchanged. -/
theorem tokenizer_match_condition_witness :
    processUnit procSyn true 0 "?!".toList = ("?!".toList, none) :=
  (tokenizer_match_condition "?!".toList).2 (by decide) procSyn true 0

/-- Claim C8: vocabulary statistics come from the deduplicated case-folded
word runs of the raw and canonicalized document; the reduction is the
(possibly negative) difference of the two sizes and the rate is the guarded
quotient by the original size.  Five synonyms of big give sizes 5 and 1,
reduction 4 and rate 0.8, and exact-case mappings can make the reduction
negative. -/
theorem vocabulary_statistics (proc : CVCProcessor) (text : Word) :
    (get_vocabulary_stats proc text).vocabulary_reduction
      = ((get_vocabulary_stats proc text).original_vocabulary_size : Int)
        - ((get_vocabulary_stats proc text).processed_vocabulary_size : Int) ∧
    (get_vocabulary_stats proc text).reduction_rate
      = (if (get_vocabulary_stats proc text).original_vocabulary_size = 0
         then 0
         else ((get_vocabulary_stats proc text).vocabulary_reduction : ℚ)
           / ((get_vocabulary_stats proc text).original_vocabulary_size : ℚ)) ∧
    (get_vocabulary_stats procBig5
        "large huge enormous gigantic massive".toList).original_vocabulary_size
      = 5 ∧
    (get_vocabulary_stats procBig5
        "large huge enormous gigantic massive".toList).processed_vocabulary_size
      = 1 ∧
    (get_vocabulary_stats procBig5
        "large huge enormous gigantic massive".toList).vocabulary_reduction
      = 4 ∧
    (get_vocabulary_stats procBig5
        "large huge enormous gigantic massive".toList).reduction_rate = 0.8 ∧
    (get_vocabulary_stats procCase "AB Ab".toList).vocabulary_reduction
      = -1 := by
  refine ⟨rfl, rfl, by decide, by decide, by decide, ?_, by decide⟩
  have ho : (get_vocabulary_stats procBig5
      "large huge enormous gigantic massive".toList).original_vocabulary_size
      = 5 := by decide
  have hv : (get_vocabulary_stats procBig5
      "large huge enormous gigantic massive".toList).vocabulary_reduction
      = 4 := by decide
  have hrate : (get_vocabulary_stats procBig5
      "large huge enormous gigantic massive".toList).reduction_rate
      = if (get_vocabulary_stats procBig5
            "large huge enormous gigantic massive".toList).original_vocabulary_size
           = 0 then 0
        else ((get_vocabulary_stats procBig5
            "large huge enormous gigantic massive".toList).vocabulary_reduction : ℚ)
          / ((get_vocabulary_stats procBig5
            "large huge enormous gigantic massive".toList).original_vocabulary_size
              : ℚ) := rfl
  rw [hrate, ho, hv]
  norm_num

/-! ### Case-insensitive index characterization -/

lemma ciList_lookup (rl : List (Word × Word)) (k : Word) :
    pyDictLookup (ciList rl) k
      = ((rl.filter (fun p => pyLower p.1 == k)).getLast?).map Prod.snd := by
  rw [pyDictLookup_eq_getLast_filter, ciList, List.filter_map,
    List.getLast?_map, Option.map_map]
  rfl

lemma ciList_isSome_iff (rl : List (Word × Word)) (k : Word) :
    (pyDictLookup (ciList rl) k).isSome = true
      ↔ k ∈ rl.map (fun p => pyLower p.1) := by
  rw [pyDictLookup_isSome_iff, ciList, List.map_map]
  rfl

/-- Claim C9 (counterexample): a parsed document that has the
`reverse_lookup` key but lacks the `mappings` key still fails engine
construction — `__init__` reads `data['mappings']` unconditionally — so
construction does not succeed whenever the document is present, parsable and
has `reverse_lookup`. -/
theorem load_missing_mappings_counterexample :
    loadProcessor (some (some ⟨some [], none, none⟩))
      = .error (.missingKey "mappings".toList) := rfl

/-- Claim C9 (amended): construction fails when the document is absent,
unparsable, or missing the `reverse_lookup` or `mappings` key, and succeeds
otherwise; on success the case-insensitive index holds exactly the
lowercased keys of `reverse_lookup`, the last lowercase-colliding key
winning. -/
theorem load_spec :
    loadProcessor none = .error .absent ∧
    loadProcessor (some none) = .error .unparsable ∧
    (∀ d : MappingDoc, d.reverse_lookup = none →
       loadProcessor (some (some d))
         = .error (.missingKey "reverse_lookup".toList)) ∧
    (∀ (d : MappingDoc) (rl : List (Word × Word)),
       d.reverse_lookup = some rl → d.mappings = none →
       loadProcessor (some (some d))
         = .error (.missingKey "mappings".toList)) ∧
    (∀ (d : MappingDoc) (rl : List (Word × Word)) (u : Unit),
       d.reverse_lookup = some rl → d.mappings = some u →
       loadProcessor (some (some d)) = .ok (mkProcessor rl)) ∧
    (∀ rl : List (Word × Word),
       (mkProcessor rl).case_insensitive_lookup = ciList rl) ∧
    (∀ (rl : List (Word × Word)) (k : Word),
       pyDictLookup (ciList rl) k
         = ((rl.filter (fun p => pyLower p.1 == k)).getLast?).map Prod.snd) ∧
    (∀ (rl : List (Word × Word)) (k : Word),
       (pyDictLookup (ciList rl) k).isSome = true
         ↔ k ∈ rl.map (fun p => pyLower p.1)) := by
  refine ⟨rfl, rfl, ?_, ?_, ?_, fun rl => rfl, ciList_lookup, ciList_isSome_iff⟩
  · intro d h
    simp only [loadProcessor, h]
  · intro d rl h1 h2
    simp only [loadProcessor, h1, h2]
  · intro d rl u h1 h2
    simp only [loadProcessor, h1, h2]

/-- Witness for the amended C9: a complete document constructs the engine,
and on the mixed-case reverse lookup the case-insensitive index maps
`enormous` to `huge`, the value of the later of the two colliding keys. -/
theorem load_spec_witness :
    loadProcessor (some (some ⟨some rlMixed, some (), some ()⟩))
      = .ok (mkProcessor rlMixed) ∧
    pyDictLookup (ciList rlMixed) "enormous".toList = some "huge".toList ∧
    ((rlMixed.filter
        (fun p => pyLower p.1 == "enormous".toList)).getLast?).map Prod.snd
      = some "huge".toList :=
  ⟨load_spec.2.2.2.2.1 ⟨some rlMixed, some (), some ()⟩ rlMixed () rfl rfl,
   by decide, by decide⟩
